import Mathlib

/-
Verification of the external merge sort in `src/external_merge_sort.cpp`,
`src/thread_pool.cpp` and their headers.

The program sorts 8-byte signed integer records spread over the regular files
of an input directory into one output file.  Records are modelled as `Int`
(the C++ `int64_t`); a file on disk is modelled by the list of complete
8-byte records it contains plus the number of trailing bytes after the last
complete record (`FileData`).  An `std::ifstream::read` of 8 bytes succeeds
exactly once per complete record and then fails, whether the remaining tail
is empty (clean end of file) or a partial record: the C++ code tests only the
stream state, so the two cases are indistinguishable to it and the model
keeps that conflation explicit.

Every definition below is translated from the source; comments cite the
function it embeds.  Where the C++ leaves an order unspecified (the pop order
of `std::priority_queue` among equal-value elements) the model fixes one
deterministic choice and the theorems do not depend on it; the one theorem
about tie-breaking (claim C7) is stated directly about the translated
comparator `Element.gt` and about the insensitivity of the merge output to
the choice.
-/

namespace ExternalMergeSort

/-- `std::sort(buffer.begin(), buffer.end())` sorts the buffer ascending.
`std::sort` is an unstable comparison sort; on `Int` records, which carry no
identity beyond their value, every correct comparison sort produces the same
list, so an insertion sort is a faithful model.  `insertSorted` inserts one
value into a sorted list. -/
def insertSorted (x : Int) : List Int → List Int
  | [] => [x]
  | y :: ys => if x ≤ y then x :: y :: ys else y :: insertSorted x ys

/-- The model of `std::sort` on an `std::vector<int64_t>`. -/
def sortList (l : List Int) : List Int := l.foldr insertSorted []

/-- A file on disk: its complete 8-byte records in order, and the number of
bytes after the last complete record (0 ≤ `trailing` < 8; the byte length of
the file is `8 * records.length + trailing`). -/
structure FileData where
  records : List Int
  trailing : Nat
deriving Repr, DecidableEq

/-- `ExternalMergeSorter::processFile`, line 93:
`size_t max_elements = memory_limit_ / (num_threads_ * sizeof(int64_t));`
(integer division; `sizeof(int64_t)` = 8).  Note the source applies no lower
clamp to this quantity. -/
def maxElements (memory_limit num_threads : Nat) : Nat :=
  memory_limit / (num_threads * 8)

/-- One execution of the read loop body of `processFile` (lines 113-131): the
buffer is cleared and then filled with up to `max_elements` records; if the
input is exhausted during the fill, `finished` is set.  Given the remaining
input `l`, the buffer receives `l.take k`, the remaining input becomes
`l.drop k`, and `finished` becomes true exactly when fewer than `k` records
were available. -/
def fillBuffer (k : Nat) (l : List Int) : List Int × List Int × Bool :=
  (l.take k, l.drop k, decide (l.length < k))

/-- The `while (!finished)` loop of `processFile` (lines 109-146): each
iteration produces one chunk (the sorted buffer is written to a fresh chunk
file; sorting is applied later in `processFileChunks`, which does not change
which records land in which chunk).  The loop is modelled with explicit fuel
because with `k = 0` the source loop never terminates (see claim C5); all
lemmas about it assume enough fuel, which `readChunks` supplies. -/
def processLoop : Nat → Nat → List Int → List (List Int)
  | 0, _, _ => []
  | n + 1, k, l =>
      let step := fillBuffer k l
      if step.2.2 then [step.1] else step.1 :: processLoop n k step.2.1

/-- The successive buffer contents (raw chunks) read by `processFile` from a
file holding the record list `l`, with per-worker capacity `k`.  The fuel
`l.length + 1` is sufficient whenever `k ≥ 1`. -/
def readChunks (k : Nat) (l : List Int) : List (List Int) :=
  processLoop (l.length + 1) k l

/-- The element type of the merge heap in `ExternalMergeSorter::mergeFiles`
(lines 285-292): a record value together with the index of the input stream
it came from. -/
structure Element where
  value : Int
  stream_index : Nat
deriving Repr, DecidableEq

/-- `Element::operator>` (lines 290-292): `return value > other.value;`.
The comparator consults only `value`; `stream_index` is ignored. -/
def Element.gt (a b : Element) : Bool := decide (a.value > b.value)

/-- Helper for `pickMin`: a stream head `x` at the front competes with the
best head `r` of the later streams; the later head wins only when strictly
smaller (ties go to the front, i.e. the lower index). -/
def pickMinCons (x : Int) : Option (Nat × Int) → Option (Nat × Int)
  | none => some (0, x)
  | some (i, v) => if v < x then some (i + 1, v) else some (0, x)

/-- The heap of `mergeFiles` holds the current head of every non-exhausted
input stream and pops an element with minimal `value`.  `pickMin` returns the
index of a stream whose head is minimal, together with that head; an empty
stream contributes nothing and only shifts the indices of the rest.  Among
equal-value heads `std::priority_queue` pops one of them, chosen by its
internal array layout; the model resolves the tie toward the lowest stream
index, and the theorems below do not depend on that choice (claim C7 proves
the merge output is the sorted flattening whatever the resolution). -/
def pickMin : List (List Int) → Option (Nat × Int)
  | [] => none
  | [] :: ss => (pickMin ss).map (fun p => (p.1 + 1, p.2))
  | (x :: _) :: ss => pickMinCons x (pickMin ss)

/-- After the head of stream `i` is popped and written, the next record of
the same stream is read (lines 307-311): stream `i` loses its head. -/
def advance : List (List Int) → Nat → List (List Int)
  | [], _ => []
  | s :: ss, 0 => s.tail :: ss
  | s :: ss, n + 1 => s :: advance ss n

/-- The merge loop of `mergeFiles` (lines 296-312): while the heap is
non-empty, pop a minimal element, append its value to the output, and refill
from the same stream.  Fuel-indexed; `kmerge` supplies sufficient fuel. -/
def kmergeF : Nat → List (List Int) → List Int
  | 0, _ => []
  | n + 1, ss =>
      match pickMin ss with
      | none => []
      | some (i, v) => v :: kmergeF n (advance ss i)

/-- The record sequence `mergeFiles` writes to its output when given input
streams `ss` (each emission consumes one record, so `ss.flatten.length` fuel
is exact). -/
def kmerge (ss : List (List Int)) : List Int := kmergeF ss.flatten.length ss

/-- `ExternalMergeSorter::mergeFiles` output content (lines 252-326), by its
three cases: an empty file list returns without creating the output file
(`none`); a single file is copied byte-wise; otherwise the heap merge runs. -/
def mergeFilesM : List (List Int) → Option (List Int)
  | [] => none
  | [f] => some f
  | f :: g :: rest => some (kmerge (f :: g :: rest))

/-- The chunks of `processFile` after `std::sort` (line 126): the raw buffer
contents, each sorted. -/
def processFileChunks (k : Nat) (f : FileData) : List (List Int) :=
  (readChunks k f.records).map sortList

/-- The record content of the single run file `filepath + ".sorted"` left by
`processFile` (lines 148-161): with one chunk file the chunk is renamed to
the run; with several the chunk files are merged into the run by
`mergeFiles` (which, on two or more files, is the heap merge `kmerge`).
There is always at least one chunk file. -/
def processFileRun (k : Nat) (f : FileData) : List Int :=
  let cs := processFileChunks k f
  if cs.length = 1 then cs.headD [] else kmerge cs

/-- `ExternalMergeSorter::ChunkInfo` (header lines 19-22): the temporary run
file path and its record count. -/
structure ChunkInfo where
  temp_file : String
  data_count : Nat
deriving Repr, DecidableEq

/-- The `ChunkInfo` returned by `processFile`: the run path is
`filepath + ".sorted"` (line 102) and `data_count` is incremented once per
successful 8-byte read (line 120), i.e. it accumulates the lengths of the
raw chunks. -/
def processFile (k : Nat) (path : String) (f : FileData) : ChunkInfo :=
  ⟨path ++ ".sorted", ((readChunks k f.records).map List.length).sum⟩

/-- The set of runs `processFile` leaves on disk, as (path, content) pairs.
The source returns a single `ChunkInfo` and always leaves exactly one run
file: `chunk_files` is never empty, and lines 148-158 either rename the sole
chunk to `temp_filename` or merge all chunks into `temp_filename`. -/
def processFileRunsList (k : Nat) (path : String) (f : FileData) :
    List (String × List Int) :=
  [(path ++ ".sorted", processFileRun k f)]

/-- `processFile` with its error channel.  The source throws only when a
stream fails to open (lines 97-99 for the input, lines 135-137 for a chunk
file); `inputOpenOk` models the input open.  No other failure exists in the
function: in particular there is no check that the file length is a multiple
of 8, so a trailing partial record takes the ordinary end-of-stream path
(the failed `read` at line 117) and is silently discarded.  Chunk-file
creation failures are not modelled; they are irrelevant to the claims, which
concern a readable input of improper length. -/
def processFileE (inputOpenOk : Bool) (k : Nat) (path : String)
    (f : FileData) : Except String (ChunkInfo × List Int) :=
  if inputOpenOk = false then Except.error (String.append "cannot open: " path)
  else Except.ok (processFile k path f, processFileRun k f)

/-- The grouping of the current file list into consecutive groups of at most
128 files (`merge_factor`, line 192) performed by each round of
`mergeChunks` (lines 199-213).  Fuel-indexed by the list length, which is
always sufficient since each step consumes at least one element. -/
def groupsOfF : Nat → List (List Int) → List (List (List Int))
  | 0, _ => []
  | n + 1, l => if l = [] then [] else l.take 128 :: groupsOfF n (l.drop 128)

/-- The groups of one merge round. -/
def groupsOf128 (l : List (List Int)) : List (List (List Int)) :=
  groupsOfF l.length l

/-- One round of the hierarchical merge (lines 188-239): each group of size 1
passes through unchanged; each larger group is merged by `mergeFiles` into
one intermediate file.  The source appends the pass-through singletons to
`next_round_files` before the merged intermediates; the model keeps group
order instead — a permutation of the same file list, to which all theorems
below are insensitive (only size, sortedness and the value multiset of the
round's file list matter). -/
def mergeRound (fs : List (List Int)) : List (List Int) :=
  (groupsOf128 fs).map (fun g => if g.length = 1 then g.headD [] else kmerge g)

/-- The `while (current_files.size() > 1)` loop of `mergeChunks`
(lines 187-241), fuel-indexed; `mergeChunksM` supplies sufficient fuel. -/
def mergeLoop : Nat → List (List Int) → List (List Int)
  | 0, fs => fs
  | n + 1, fs => if fs.length ≤ 1 then fs else mergeLoop n (mergeRound fs)

/-- The content of the output file written by `ExternalMergeSorter::
mergeChunks` (lines 167-245) given the run contents, or `none` when no file
is created at the output path.  Cases in source order: an empty run set
returns immediately (lines 168-170, no output file); a single run is copied
to the output (lines 173-176); at most 128 runs are merged directly by
`mergeFiles` (lines 179-186); otherwise the hierarchical loop runs and the
last surviving file is renamed to the output (lines 243-245, guarded by
`!current_files.empty()`). -/
def mergeChunksM (runs : List (List Int)) : Option (List Int) :=
  if runs.length = 0 then none
  else if runs.length = 1 then runs.head?
  else if runs.length ≤ 128 then mergeFilesM runs
  else (mergeLoop runs.length runs).head?

/-- `ExternalMergeSorter::sort` (lines 26-51): `splitAndPresort` turns each
input file into one run via `processFile` (order of completion does not
change the collected run multiset) and `mergeChunks` merges the runs; the
result is the content of the file at the output path, or `none` when no file
is created there.  `k` is the per-worker capacity `maxElements M W`. -/
def sortOutput (k : Nat) (files : List FileData) : Option (List Int) :=
  mergeChunksM (files.map (processFileRun k))

/-- The run-generation read loop of `processFile` viewed as a state machine
for claim C5: the state is the remaining input and the `finished` flag, and
one transition is one execution of the loop body (fill the buffer with
`min k remaining` records; set `finished` iff fewer than `k` were
available).  `runGenSteps n k s` runs `n` iterations from `s`; once
`finished` holds the loop has exited and the state is final. -/
def runGenSteps : Nat → Nat → List Int × Bool → List Int × Bool
  | 0, _, s => s
  | n + 1, k, s =>
      if s.2 then s
      else runGenSteps n k (s.1.drop k, decide (s.1.length < k))

/-- An input stream of `mergeFiles` for the error analysis of claim C8:
`good` is the list of records delivered before the stream fails or ends, and
`lost` the records beyond a mid-stream read error (`lost = []` models a
clean end of file).  `ifstream::read` reports both cases identically — the
stream state test at lines 300 and 309 — so the code consumes exactly
`good` in either case. -/
structure MFile where
  good : List Int
  lost : List Int
deriving Repr, DecidableEq

/-- The externally observable effects of one `mergeFiles` call for claim C8:
whether an error was thrown (and its message), the content of the file left
at the output path (`none` when no file was created), whether the merger
deleted any input run file, and the number of input handles still open at
return. -/
structure MergeEffects where
  threw : Option String
  outputOnDisk : Option (List Int)
  inputsDeleted : Bool
  openHandles : Nat
deriving Repr, DecidableEq

/-- The open loop of `mergeFiles` (lines 263-273) opens the inputs in index
order and throws at the first failure: the index of the first input whose
open fails, if any. -/
def firstOpenFail (openOk : Nat → Bool) (n : Nat) : Option Nat :=
  (List.range n).find? (fun i => ! openOk i)

/-- `ExternalMergeSorter::mergeFiles` (lines 252-326) with its effects.
`openOk i` tells whether input `i` opens; `outOk` whether the output opens.
Branches in source order: an empty list returns with no effect (253-255); a
single file is copied (257-261); an input open failure closes the inputs
already opened and throws before the output is touched (263-273); an output
open failure closes every input and throws, leaving no output file
(276-283); otherwise the heap merge writes the merged `good` records — a
mid-stream read error is indistinguishable from end of stream, so it ends
the stream silently rather than aborting.  Every path closes all handles
(`openHandles = 0`) and no path deletes an input file (`inputsDeleted =
false`; the function contains no `fs::remove`). -/
def mergeFilesE (openOk : Nat → Bool) (outOk : Bool) (files : List MFile) :
    MergeEffects :=
  match files with
  | [] => ⟨none, none, false, 0⟩
  | [f] => ⟨none, some (f.good ++ f.lost), false, 0⟩
  | f :: g :: rest =>
      match firstOpenFail openOk (f :: g :: rest).length with
      | some i => ⟨some (String.append "cannot open input " (toString i)),
                   none, false, 0⟩
      | none =>
          if outOk = false then ⟨some "cannot create output file", none,
                                 false, 0⟩
          else ⟨none, some (kmerge ((f :: g :: rest).map MFile.good)),
                false, 0⟩

/-- The shared state of `ThreadPool` (thread_pool.h lines 29-39 and
thread_pool.cpp) for claim C9, abstracted to what the mutex protects plus
the bookkeeping the claim speaks about: the atomic `stop_` flag, the task
queue (tasks numbered by submission), the list of tasks submitted so far,
the list of tasks a worker has executed, how many of the `W` workers have
returned, and whether the destructor has finished joining. -/
structure PoolState where
  stop : Bool
  queue : List Nat
  submitted : List Nat
  executed : List Nat
  exited : Nat
  joined : Bool
deriving Repr, DecidableEq

/-- The pool state at construction (thread_pool.cpp line 4:
`stop_(false)`, empty queue, no worker has returned). -/
def initPool : PoolState := ⟨false, [], [], [], 0, false⟩

/-- The interleaved transitions of `ThreadPool` with `W` workers.  Each
constructor is one atomic step of the source, with exactly the guards the
source imposes:
* `submit` — `ThreadPool::submit` (thread_pool.h lines 43-75) enqueues under
  the mutex; it throws instead if `stop_` is set, so a successful
  submission requires `stop = false`.
* `setStop` — the destructor sets `stop_ = true` (thread_pool.cpp line 36).
* `take` — a worker, holding the mutex, finds the queue non-empty, pops the
  front task and runs it (thread_pool.cpp lines 24-28).
* `workerExit` — a worker returns only under `stop_ && tasks_.empty()`
  (thread_pool.cpp lines 20-22).
* `dtorReturn` — the destructor's `join` loop returns once all `W` workers
  have exited (thread_pool.cpp lines 39-42), after it set `stop_`. -/
inductive PoolStep (W : Nat) : PoolState → PoolState → Prop
  | submit (s : PoolState) (t : Nat) (h : s.stop = false) :
      PoolStep W s ⟨s.stop, s.queue ++ [t], s.submitted ++ [t], s.executed,
                    s.exited, s.joined⟩
  | setStop (s : PoolState) :
      PoolStep W s ⟨true, s.queue, s.submitted, s.executed, s.exited,
                    s.joined⟩
  | take (s : PoolState) (t : Nat) (q : List Nat) (h : s.queue = t :: q) :
      PoolStep W s ⟨s.stop, q, s.submitted, s.executed ++ [t], s.exited,
                    s.joined⟩
  | workerExit (s : PoolState) (h1 : s.stop = true) (h2 : s.queue = [])
      (h3 : s.exited < W) :
      PoolStep W s ⟨s.stop, s.queue, s.submitted, s.executed, s.exited + 1,
                    s.joined⟩
  | dtorReturn (s : PoolState) (h1 : s.stop = true) (h2 : s.exited = W) :
      PoolStep W s ⟨s.stop, s.queue, s.submitted, s.executed, s.exited,
                    true⟩

/-- The states a pool with `W` workers can reach from construction. -/
inductive PoolReachable (W : Nat) : PoolState → Prop
  | init : PoolReachable W initPool
  | step {s s' : PoolState} : PoolReachable W s → PoolStep W s s' →
      PoolReachable W s'

/-- The inductive invariant of the pool: the submitted tasks are exactly the
executed ones followed by the queued ones; no worker returns before `stop_`
is set; once any worker has returned the queue is empty and stays empty
(submission is rejected after `stop_`); and the destructor returns only
after `stop_` is set and all `W` workers have exited. -/
def PoolInv (W : Nat) (s : PoolState) : Prop :=
  s.submitted = s.executed ++ s.queue
  ∧ (s.stop = false → s.exited = 0)
  ∧ (0 < s.exited → s.queue = [] ∧ s.stop = true)
  ∧ (s.joined = true → s.exited = W ∧ s.stop = true)

theorem insertSorted_perm (x : Int) (l : List Int) :
    (insertSorted x l).Perm (x :: l) := by
  induction l with
  | nil => simp [insertSorted]
  | cons y ys ih =>
    by_cases h : x ≤ y
    · simp [insertSorted, h]
    · simp only [insertSorted, if_neg h]
      exact (ih.cons y).trans (List.Perm.swap x y ys)

theorem sortList_perm (l : List Int) : (sortList l).Perm l := by
  induction l with
  | nil => simp [sortList]
  | cons a l ih =>
    have h1 : sortList (a :: l) = insertSorted a (sortList l) := rfl
    rw [h1]
    exact (insertSorted_perm a (sortList l)).trans (ih.cons a)

theorem insertSorted_sorted (x : Int) (l : List Int)
    (h : l.Sorted (· ≤ ·)) : (insertSorted x l).Sorted (· ≤ ·) := by
  induction l with
  | nil => simp [insertSorted]
  | cons y ys ih =>
    rcases List.sorted_cons.mp h with ⟨hy, hys⟩
    by_cases hxy : x ≤ y
    · simp only [insertSorted, if_pos hxy]
      refine List.sorted_cons.mpr ⟨?_, h⟩
      intro b hb
      rcases List.mem_cons.mp hb with rfl | hb
      · exact hxy
      · exact le_trans hxy (hy b hb)
    · simp only [insertSorted, if_neg hxy]
      refine List.sorted_cons.mpr ⟨?_, ih hys⟩
      intro b hb
      have hb2 : b ∈ x :: ys := (insertSorted_perm x ys).mem_iff.mp hb
      rcases List.mem_cons.mp hb2 with rfl | hb2
      · exact le_of_not_le hxy
      · exact hy b hb2

theorem sortList_sorted (l : List Int) : (sortList l).Sorted (· ≤ ·) := by
  induction l with
  | nil => simp [sortList]
  | cons a l ih =>
    have h1 : sortList (a :: l) = insertSorted a (sortList l) := rfl
    rw [h1]
    exact insertSorted_sorted a (sortList l) ih

theorem processLoop_flatten (k : Nat) (hk : 0 < k) :
    ∀ (n : Nat) (l : List Int), l.length < n →
      (processLoop n k l).flatten = l := by
  intro n
  induction n with
  | zero => intro l h; omega
  | succ n ih =>
    intro l h
    by_cases hfin : l.length < k
    · simp [processLoop, fillBuffer, hfin,
        List.take_of_length_le (le_of_lt hfin)]
    · have hlen : (l.drop k).length < n := by
        rw [List.length_drop]; omega
      simp [processLoop, fillBuffer, hfin, ih _ hlen,
        List.take_append_drop]

theorem readChunks_flatten (k : Nat) (hk : 0 < k) (l : List Int) :
    (readChunks k l).flatten = l :=
  processLoop_flatten k hk (l.length + 1) l (Nat.lt_succ_self _)

theorem processLoop_chunk_le (k : Nat) :
    ∀ (n : Nat) (l c : List Int), c ∈ processLoop n k l → c.length ≤ k := by
  intro n
  induction n with
  | zero => intro l c hc; simp [processLoop] at hc
  | succ n ih =>
    intro l c hc
    by_cases hfin : l.length < k
    · simp [processLoop, fillBuffer, hfin] at hc
      subst hc
      simp [List.length_take]
    · simp [processLoop, fillBuffer, hfin, List.mem_cons] at hc
      rcases hc with hc | hc
      · subst hc; simp [List.length_take]
      · exact ih _ c hc

theorem readChunks_chunk_le (k : Nat) (l c : List Int)
    (hc : c ∈ readChunks k l) : c.length ≤ k :=
  processLoop_chunk_le k (l.length + 1) l c hc

theorem processLoop_ne_nil (k : Nat) (n : Nat) (l : List Int) (hn : 0 < n) :
    processLoop n k l ≠ [] := by
  cases n with
  | zero => omega
  | succ n =>
    by_cases hfin : l.length < k
    · simp [processLoop, fillBuffer, hfin]
    · simp [processLoop, fillBuffer, hfin]

theorem readChunks_ne_nil (k : Nat) (l : List Int) : readChunks k l ≠ [] :=
  processLoop_ne_nil k (l.length + 1) l (Nat.succ_pos _)

theorem pickMin_none : ∀ (ss : List (List Int)), pickMin ss = none →
    ss.flatten = [] := by
  intro ss
  induction ss with
  | nil => intro _; rfl
  | cons s ss ih =>
    intro h
    cases s with
    | nil =>
      have h2 : pickMin ss = none := by
        cases hs : pickMin ss with
        | none => rfl
        | some p => simp [pickMin, hs] at h
      simp [ih h2]
    | cons x t =>
      cases hs : pickMin ss with
      | none => simp [pickMin, pickMinCons, hs] at h
      | some p =>
        rcases p with ⟨i, v⟩
        by_cases hv : v < x <;> simp [pickMin, pickMinCons, hs, hv] at h

theorem pickMin_perm : ∀ (ss : List (List Int)) (i : Nat) (v : Int),
    pickMin ss = some (i, v) →
    ss.flatten.Perm (v :: (advance ss i).flatten) := by
  intro ss
  induction ss with
  | nil => intro i v h; simp [pickMin] at h
  | cons s ss ih =>
    intro i v h
    cases s with
    | nil =>
      cases hs : pickMin ss with
      | none => simp [pickMin, hs] at h
      | some p =>
        rcases p with ⟨j, w⟩
        simp [pickMin, hs] at h
        rcases h with ⟨hi, hv⟩
        subst hv
        rw [← hi]
        simp only [advance, List.flatten_cons, List.nil_append, List.tail_nil]
        exact ih j w hs
    | cons x t =>
      cases hs : pickMin ss with
      | none =>
        simp [pickMin, pickMinCons, hs] at h
        rcases h with ⟨hi, hv⟩
        subst hv
        rw [← hi]
        have h0 : ss.flatten = [] := pickMin_none ss hs
        simp [advance, h0]
      | some p =>
        rcases p with ⟨j, w⟩
        simp only [pickMin, pickMinCons, hs] at h
        by_cases hw : w < x
        · simp [hw] at h
          rcases h with ⟨hi, hv⟩
          subst hv
          rw [← hi]
          have hperm := ih j w hs
          simp only [advance, List.flatten_cons]
          exact (hperm.append_left (x :: t)).trans List.perm_middle
        · simp [hw] at h
          rcases h with ⟨hi, hv⟩
          subst hv
          rw [← hi]
          simp [advance]

theorem pickMin_min : ∀ (ss : List (List Int)) (i : Nat) (v : Int),
    (∀ s ∈ ss, s.Sorted (· ≤ ·)) → pickMin ss = some (i, v) →
    ∀ x ∈ ss.flatten, v ≤ x := by
  intro ss
  induction ss with
  | nil => intro i v _ h; simp [pickMin] at h
  | cons s ss ih =>
    intro i v hsort h x hx
    have hs0 : s.Sorted (· ≤ ·) := hsort s (List.mem_cons_self s ss)
    have hss : ∀ u ∈ ss, u.Sorted (· ≤ ·) :=
      fun u hu => hsort u (List.mem_cons_of_mem s hu)
    rw [List.flatten_cons, List.mem_append] at hx
    cases s with
    | nil =>
      cases hs : pickMin ss with
      | none => simp [pickMin, hs] at h
      | some p =>
        rcases p with ⟨j, w⟩
        simp [pickMin, hs] at h
        rcases h with ⟨hi, hv⟩
        subst hv
        rcases hx with hx | hx
        · simp at hx
        · exact ih j w hss hs x hx
    | cons y t =>
      cases hs : pickMin ss with
      | none =>
        simp [pickMin, pickMinCons, hs] at h
        rcases h with ⟨hi, hv⟩
        subst hv
        rcases hx with hx | hx
        · rcases List.mem_cons.mp hx with rfl | hx
          · exact le_refl x
          · exact (List.sorted_cons.mp hs0).1 x hx
        · rw [pickMin_none ss hs] at hx
          simp at hx
      | some p =>
        rcases p with ⟨j, w⟩
        simp only [pickMin, pickMinCons, hs] at h
        by_cases hw : w < y
        · simp [hw] at h
          rcases h with ⟨hi, hv⟩
          subst hv
          rcases hx with hx | hx
          · rcases List.mem_cons.mp hx with rfl | hx
            · exact le_of_lt hw
            · exact le_trans (le_of_lt hw) ((List.sorted_cons.mp hs0).1 x hx)
          · exact ih j w hss hs x hx
        · simp [hw] at h
          rcases h with ⟨hi, hv⟩
          subst hv
          rcases hx with hx | hx
          · rcases List.mem_cons.mp hx with rfl | hx
            · exact le_refl x
            · exact (List.sorted_cons.mp hs0).1 x hx
          · exact le_trans (le_of_not_lt hw) (ih j w hss hs x hx)

theorem advance_sorted : ∀ (ss : List (List Int)) (i : Nat),
    (∀ s ∈ ss, s.Sorted (· ≤ ·)) →
    ∀ s ∈ advance ss i, s.Sorted (· ≤ ·) := by
  intro ss
  induction ss with
  | nil => intro i _ s hs; simp [advance] at hs
  | cons u ss ih =>
    intro i hsort s hs
    have hu : u.Sorted (· ≤ ·) := hsort u (List.mem_cons_self u ss)
    have hss : ∀ w ∈ ss, w.Sorted (· ≤ ·) :=
      fun w hw => hsort w (List.mem_cons_of_mem u hw)
    cases i with
    | zero =>
      rcases List.mem_cons.mp hs with rfl | hs
      · exact hu.tail
      · exact hss s hs
    | succ n =>
      rcases List.mem_cons.mp hs with rfl | hs
      · exact hu
      · exact ih n hss s hs

theorem kmergeF_perm : ∀ (n : Nat) (ss : List (List Int)),
    ss.flatten.length ≤ n → (kmergeF n ss).Perm ss.flatten := by
  intro n
  induction n with
  | zero =>
    intro ss h
    have h0 : ss.flatten = [] := List.length_eq_zero.mp (Nat.le_zero.mp h)
    rw [h0]; exact List.Perm.refl _
  | succ n ih =>
    intro ss h
    match hp : pickMin ss with
    | none =>
      rw [pickMin_none ss hp]
      simp [kmergeF, hp]
    | some (i, v) =>
      have hperm := pickMin_perm ss i v hp
      have hlen : (advance ss i).flatten.length ≤ n := by
        have := hperm.length_eq
        simp only [List.length_cons] at this
        omega
      simp only [kmergeF, hp]
      exact ((ih (advance ss i) hlen).cons v).trans hperm.symm

theorem kmergeF_sorted : ∀ (n : Nat) (ss : List (List Int)),
    (∀ s ∈ ss, s.Sorted (· ≤ ·)) → ss.flatten.length ≤ n →
    (kmergeF n ss).Sorted (· ≤ ·) := by
  intro n
  induction n with
  | zero => intro ss _ _; simp [kmergeF]
  | succ n ih =>
    intro ss hsort h
    match hp : pickMin ss with
    | none => simp [kmergeF, hp]
    | some (i, v) =>
      have hperm := pickMin_perm ss i v hp
      have hlen : (advance ss i).flatten.length ≤ n := by
        have := hperm.length_eq
        simp only [List.length_cons] at this
        omega
      simp only [kmergeF, hp]
      refine List.sorted_cons.mpr ⟨?_, ih (advance ss i)
        (advance_sorted ss i hsort) hlen⟩
      intro b hb
      have hb1 : b ∈ (advance ss i).flatten :=
        (kmergeF_perm n (advance ss i) hlen).mem_iff.mp hb
      have hb2 : b ∈ ss.flatten :=
        hperm.mem_iff.mpr (List.mem_cons_of_mem v hb1)
      exact pickMin_min ss i v hsort hp b hb2

theorem kmerge_perm (ss : List (List Int)) : (kmerge ss).Perm ss.flatten :=
  kmergeF_perm ss.flatten.length ss (le_refl _)

theorem kmerge_sorted (ss : List (List Int))
    (hsort : ∀ s ∈ ss, s.Sorted (· ≤ ·)) : (kmerge ss).Sorted (· ≤ ·) :=
  kmergeF_sorted ss.flatten.length ss hsort (le_refl _)

theorem flatten_map_perm {α : Type} (p q : α → List Int) :
    ∀ (L : List α), (∀ a ∈ L, (p a).Perm (q a)) →
    ((L.map p).flatten).Perm ((L.map q).flatten) := by
  intro L
  induction L with
  | nil => intro _; exact List.Perm.refl _
  | cons a L ih =>
    intro h
    simp only [List.map_cons, List.flatten_cons]
    exact (h a (List.mem_cons_self a L)).append
      (ih (fun b hb => h b (List.mem_cons_of_mem a hb)))

theorem processFileChunks_sorted (k : Nat) (f : FileData) :
    ∀ c ∈ processFileChunks k f, c.Sorted (· ≤ ·) := by
  intro c hc
  rcases List.mem_map.mp hc with ⟨b, _, rfl⟩
  exact sortList_sorted b

theorem processFileChunks_flatten_perm (k : Nat) (hk : 0 < k)
    (f : FileData) : ((processFileChunks k f).flatten).Perm f.records := by
  have h1 : ((processFileChunks k f).flatten).Perm
      (((readChunks k f.records).map id).flatten) := by
    exact flatten_map_perm sortList id (readChunks k f.records)
      (fun b _ => sortList_perm b)
  rw [List.map_id, readChunks_flatten k hk] at h1
  exact h1

theorem processFileRun_sorted (k : Nat) (f : FileData) :
    (processFileRun k f).Sorted (· ≤ ·) := by
  rw [processFileRun]
  by_cases h1 : (processFileChunks k f).length = 1
  · rcases List.length_eq_one.mp h1 with ⟨c, hc⟩
    simp only [h1, if_pos]
    rw [hc]
    exact processFileChunks_sorted k f c (hc ▸ List.mem_cons_self c [])
  · simp only [h1, if_false]
    exact kmerge_sorted _ (processFileChunks_sorted k f)

theorem processFileRun_perm (k : Nat) (hk : 0 < k) (f : FileData) :
    (processFileRun k f).Perm f.records := by
  have hflat := processFileChunks_flatten_perm k hk f
  rw [processFileRun]
  by_cases h1 : (processFileChunks k f).length = 1
  · rcases List.length_eq_one.mp h1 with ⟨c, hc⟩
    simp only [h1, if_pos]
    rw [hc]
    rw [hc] at hflat
    simpa using hflat
  · simp only [h1, if_false]
    exact (kmerge_perm _).trans hflat

theorem groupsOfF_flatten : ∀ (n : Nat) (l : List (List Int)),
    l.length ≤ n → (groupsOfF n l).flatten = l := by
  intro n
  induction n with
  | zero =>
    intro l h
    rw [List.length_eq_zero.mp (Nat.le_zero.mp h)]
    rfl
  | succ n ih =>
    intro l h
    by_cases hl : l = []
    · simp [groupsOfF, hl]
    · have hlen : (l.drop 128).length ≤ n := by
        rw [List.length_drop]
        have : 0 < l.length := List.length_pos.mpr hl
        omega
      simp [groupsOfF, hl, ih _ hlen, List.take_append_drop]

theorem groupsOfF_mem_ne_nil : ∀ (n : Nat) (l : List (List Int))
    (g : List (List Int)), g ∈ groupsOfF n l → g ≠ [] := by
  intro n
  induction n with
  | zero => intro l g hg; simp [groupsOfF] at hg
  | succ n ih =>
    intro l g hg
    by_cases hl : l = []
    · simp [groupsOfF, hl] at hg
    · simp only [groupsOfF, if_neg hl, List.mem_cons] at hg
      rcases hg with rfl | hg
      · cases l with
        | nil => exact absurd rfl hl
        | cons a l => simp
      · exact ih _ g hg

theorem groupsOfF_length_le : ∀ (n : Nat) (l : List (List Int)),
    l.length ≤ n → (groupsOfF n l).length ≤ l.length := by
  intro n
  induction n with
  | zero => intro l h; simp [groupsOfF]
  | succ n ih =>
    intro l h
    by_cases hl : l = []
    · simp [groupsOfF, hl]
    · have hpos : 0 < l.length := List.length_pos.mpr hl
      have hlen : (l.drop 128).length ≤ n := by
        rw [List.length_drop]; omega
      have hrec := ih _ hlen
      rw [List.length_drop] at hrec
      simp only [groupsOfF, if_neg hl, List.length_cons]
      omega

theorem groupsOfF_length_lt (n : Nat) (l : List (List Int))
    (h2 : 2 ≤ l.length) (hn : l.length ≤ n) :
    (groupsOfF n l).length < l.length := by
  cases n with
  | zero => omega
  | succ n =>
    have hl : l ≠ [] := by
      intro h0; rw [h0] at h2; simp at h2
    have hlen : (l.drop 128).length ≤ n := by
      rw [List.length_drop]; omega
    have hrec := groupsOfF_length_le n _ hlen
    rw [List.length_drop] at hrec
    simp only [groupsOfF, if_neg hl, List.length_cons]
    omega

theorem groupsOf128_flatten (l : List (List Int)) :
    (groupsOf128 l).flatten = l :=
  groupsOfF_flatten l.length l (le_refl _)

theorem groupsOf128_mem_mem (l : List (List Int)) (g : List (List Int))
    (hg : g ∈ groupsOf128 l) : ∀ s ∈ g, s ∈ l := by
  intro s hs
  rw [← groupsOf128_flatten l]
  exact List.mem_flatten.mpr ⟨g, hg, hs⟩

theorem mergeRound_flatten_perm (fs : List (List Int)) :
    ((mergeRound fs).flatten).Perm fs.flatten := by
  have h1 : ((mergeRound fs).flatten).Perm
      (((groupsOf128 fs).map List.flatten).flatten) := by
    refine flatten_map_perm _ List.flatten (groupsOf128 fs) ?_
    intro g hg
    by_cases h1 : g.length = 1
    · rcases List.length_eq_one.mp h1 with ⟨s, rfl⟩
      simp [h1]
    · simp only [h1, if_false]
      exact kmerge_perm g
  rw [← List.flatten_flatten, groupsOf128_flatten] at h1
  exact h1

theorem mergeRound_sorted (fs : List (List Int))
    (hsort : ∀ s ∈ fs, s.Sorted (· ≤ ·)) :
    ∀ r ∈ mergeRound fs, r.Sorted (· ≤ ·) := by
  intro r hr
  rcases List.mem_map.mp hr with ⟨g, hg, rfl⟩
  have hgs : ∀ s ∈ g, s.Sorted (· ≤ ·) :=
    fun s hs => hsort s (groupsOf128_mem_mem fs g hg s hs)
  by_cases h1 : g.length = 1
  · rcases List.length_eq_one.mp h1 with ⟨s, rfl⟩
    simp only [h1, if_pos]
    simpa using hgs s (List.mem_cons_self s [])
  · simp only [h1, if_false]
    exact kmerge_sorted g hgs

theorem mergeRound_length_lt (fs : List (List Int))
    (h2 : 2 ≤ fs.length) : (mergeRound fs).length < fs.length := by
  rw [mergeRound, List.length_map]
  exact groupsOfF_length_lt fs.length fs h2 (le_refl _)

theorem mergeRound_ne_nil (fs : List (List Int)) (hne : fs ≠ []) :
    mergeRound fs ≠ [] := by
  intro h
  have h2 := groupsOf128_flatten fs
  rcases hg : groupsOf128 fs with _ | ⟨g, gs⟩
  · rw [hg] at h2
    exact hne h2.symm
  · rw [mergeRound, hg] at h
    simp at h

theorem mergeLoop_spec : ∀ (n : Nat) (fs : List (List Int)),
    fs.length ≤ n + 1 → (∀ s ∈ fs, s.Sorted (· ≤ ·)) →
    ((mergeLoop n fs).flatten.Perm fs.flatten
     ∧ (∀ s ∈ mergeLoop n fs, s.Sorted (· ≤ ·))
     ∧ (mergeLoop n fs).length ≤ 1
     ∧ (fs ≠ [] → mergeLoop n fs ≠ [])) := by
  intro n
  induction n with
  | zero =>
    intro fs hlen hsort
    simp only [mergeLoop]
    exact ⟨List.Perm.refl _, hsort, by omega, fun h => h⟩
  | succ n ih =>
    intro fs hlen hsort
    by_cases h1 : fs.length ≤ 1
    · simp only [mergeLoop, if_pos h1]
      exact ⟨List.Perm.refl _, hsort, h1, fun h => h⟩
    · have h2 : 2 ≤ fs.length := by omega
      have hlt := mergeRound_length_lt fs h2
      have hne : fs ≠ [] := by
        intro h0; rw [h0] at h2; simp at h2
      have hrec := ih (mergeRound fs) (by omega)
        (mergeRound_sorted fs hsort)
      simp only [mergeLoop, if_neg h1]
      refine ⟨hrec.1.trans (mergeRound_flatten_perm fs), hrec.2.1,
        hrec.2.2.1, fun _ => hrec.2.2.2 (mergeRound_ne_nil fs hne)⟩

theorem mergeChunksM_spec (runs : List (List Int)) (hne : runs ≠ [])
    (hsort : ∀ r ∈ runs, r.Sorted (· ≤ ·)) :
    ∃ out, mergeChunksM runs = some out ∧ out.Sorted (· ≤ ·)
      ∧ out.Perm runs.flatten := by
  rcases runs with _ | ⟨r1, rest1⟩
  · exact absurd rfl hne
  rcases rest1 with _ | ⟨r2, rest2⟩
  · refine ⟨r1, ?_, ?_, ?_⟩
    · simp [mergeChunksM]
    · simpa using hsort r1 (List.mem_cons_self r1 [])
    · simp
  · have hlen2 : (r1 :: r2 :: rest2).length = rest2.length + 2 := by simp
    by_cases h128 : (r1 :: r2 :: rest2).length ≤ 128
    · refine ⟨kmerge (r1 :: r2 :: rest2), ?_, ?_, ?_⟩
      · simp only [mergeChunksM]
        rw [if_neg (by omega), if_neg (by omega), if_pos h128]
        rfl
      · exact kmerge_sorted _ hsort
      · exact kmerge_perm _
    · have hloop := mergeLoop_spec (r1 :: r2 :: rest2).length
        (r1 :: r2 :: rest2) (by omega) hsort
      rcases hloop with ⟨hperm, hsorted, hlen1, hnn⟩
      have hnn2 : mergeLoop (r1 :: r2 :: rest2).length
          (r1 :: r2 :: rest2) ≠ [] := hnn (by simp)
      have hex : ∃ out, mergeLoop (r1 :: r2 :: rest2).length
          (r1 :: r2 :: rest2) = [out] := by
        rcases hout : mergeLoop (r1 :: r2 :: rest2).length
          (r1 :: r2 :: rest2) with _ | ⟨out, rest⟩
        · exact absurd hout hnn2
        · rcases rest with _ | ⟨b, rest⟩
          · exact ⟨out, rfl⟩
          · rw [hout] at hlen1; simp at hlen1
      rcases hex with ⟨out, hout⟩
      refine ⟨out, ?_, ?_, ?_⟩
      · simp only [mergeChunksM]
        rw [if_neg (by omega), if_neg (by omega), if_neg h128, hout,
          List.head?_cons]
      · exact hsorted out (hout ▸ List.mem_cons_self out [])
      · rw [hout] at hperm
        simpa using hperm

theorem poolInv_init (W : Nat) : PoolInv W initPool := by
  refine ⟨rfl, fun _ => rfl, ?_, ?_⟩
  · intro h; simp [initPool] at h
  · intro h; simp [initPool] at h

theorem poolInv_step (W : Nat) (s s' : PoolState) (hinv : PoolInv W s)
    (hstep : PoolStep W s s') : PoolInv W s' := by
  rcases hinv with ⟨h1, h2, h3, h4⟩
  cases hstep with
  | submit t h =>
    refine ⟨?_, h2, ?_, ?_⟩
    · show s.submitted ++ [t] = s.executed ++ (s.queue ++ [t])
      rw [h1, List.append_assoc]
    · intro hx
      exact absurd (h3 hx).2 (by simp [h])
    · intro hj
      exact absurd (h4 hj).2 (by simp [h])
  | setStop =>
    refine ⟨h1, ?_, ?_, ?_⟩
    · intro hs; simp at hs
    · intro hx
      have hx2 : 0 < s.exited := hx
      refine ⟨?_, rfl⟩
      cases hstop : s.stop with
      | false => exact absurd (h2 hstop) (by omega)
      | true => exact (h3 hx2).1
    · intro hj
      exact ⟨(h4 hj).1, rfl⟩
  | take t q h =>
    refine ⟨?_, h2, ?_, ?_⟩
    · show s.submitted = (s.executed ++ [t]) ++ q
      rw [h1, h, List.append_assoc]
      rfl
    · intro hx
      exact absurd (h3 hx).1 (by simp [h])
    · exact h4
  | workerExit h1s h2s h3s =>
    refine ⟨h1, ?_, ?_, ?_⟩
    · intro hs
      rw [h1s] at hs
      simp at hs
    · intro _
      exact ⟨h2s, h1s⟩
    · intro hj
      exact absurd (h4 hj).1 (by omega)
  | dtorReturn h1s h2s =>
    exact ⟨h1, h2, h3, fun _ => ⟨h2s, h1s⟩⟩

theorem poolInv_reachable (W : Nat) (s : PoolState)
    (h : PoolReachable W s) : PoolInv W s := by
  induction h with
  | init => exact poolInv_init W
  | step _ hstep ih => exact poolInv_step W _ _ ih hstep

/-- Claim C1, counterexample to the claim as frozen: for the empty set of
input files, `sort()` creates no output file at all (`mergeChunks` returns
at lines 168-170 before the output file is opened), while the claim demands
an output file whose record multiset is the (empty) union of the inputs. -/
theorem c1_empty_set_no_output_cex :
    ¬ ∃ out, sortOutput 1 [] = some out := by
  rintro ⟨out, hout⟩
  simp [sortOutput, mergeChunksM] at hout

/-- Claim C1 (amended): for every NONEMPTY set of input files whose lengths
are multiples of 8, and any per-worker capacity of at least one record,
`sort()` produces an output file whose records are in non-decreasing order
and whose multiset equals the multiset union of the records of all input
files.  (For the empty set no output file is created; see the
counterexample.) -/
theorem c1_sort_sorted_and_multiset (k : Nat) (files : List FileData)
    (hk : 0 < k) (hne : files ≠ [])
    (_hmul : ∀ f ∈ files, f.trailing = 0) :
    ∃ out, sortOutput k files = some out ∧ out.Sorted (· ≤ ·)
      ∧ out.Perm ((files.map FileData.records).flatten) := by
  have hruns_ne : files.map (processFileRun k) ≠ [] := by
    intro h
    apply hne
    rcases files with _ | ⟨f, fs⟩
    · rfl
    · simp at h
  have hsort : ∀ r ∈ files.map (processFileRun k), r.Sorted (· ≤ ·) := by
    intro r hr
    rcases List.mem_map.mp hr with ⟨f, _, rfl⟩
    exact processFileRun_sorted k f
  rcases mergeChunksM_spec _ hruns_ne hsort with ⟨out, hout, hsorted, hperm⟩
  refine ⟨out, hout, hsorted, hperm.trans ?_⟩
  exact flatten_map_perm (processFileRun k) FileData.records files
    (fun f _ => processFileRun_perm k hk f)

/-- Witness for C1: two concrete input files, capacity 1. -/
theorem c1_sort_sorted_and_multiset_witness :
    ∃ out, sortOutput 1 [⟨[2, 1], 0⟩, ⟨[0], 0⟩] = some out
      ∧ out.Sorted (· ≤ ·)
      ∧ out.Perm ((([⟨[2, 1], 0⟩, ⟨[0], 0⟩] : List FileData).map
          FileData.records).flatten) :=
  c1_sort_sorted_and_multiset 1 [⟨[2, 1], 0⟩, ⟨[0], 0⟩] (by decide)
    (by decide) (by decide)

/-- Claim C2, counterexample to the claim as frozen: with an empty Run Set
the claim requires an empty output file (content `some []`); `mergeChunks`
instead returns without creating any file (`none`). -/
theorem c2_empty_runset_cex : mergeChunksM [] ≠ some [] := by
  decide

/-- Claim C2 (amended): when the Run Set at the start of the merge phase is
empty (the input directory contains no regular files), `sort()` returns
success but creates NO file at the output path (lines 168-170 return before
any output is opened). -/
theorem c2_empty_runset_no_output :
    mergeChunksM [] = none ∧ sortOutput 1 [] = none :=
  ⟨rfl, rfl⟩

/-- Claim C3, counterexample to the claim as frozen: a readable 12-byte file
(one complete record 42, then 4 trailing bytes) is processed without any
error — `processFile` returns normally with the one complete record; no
corrupt-input error exists anywhere in the function. -/
theorem c3_trailing_bytes_cex :
    processFileE true 2 "in.dat" ⟨[42], 4⟩
      = Except.ok (⟨"in.dat.sorted", 1⟩, [42]) := by
  rfl

/-- Claim C3 (amended): a file whose length is not a multiple of 8 is NOT
reported as an error: the run producer completes successfully, silently
discarding the trailing partial record; the run it leaves behind holds
exactly the complete records, sorted, and the returned count is the number
of complete records. -/
theorem c3_trailing_ignored (k : Nat) (path : String) (recs : List Int)
    (t : Nat) (hk : 0 < k) :
    processFileE true k path ⟨recs, t⟩
        = Except.ok (processFile k path ⟨recs, 0⟩, processFileRun k ⟨recs, 0⟩)
      ∧ (processFileRun k ⟨recs, t⟩).Sorted (· ≤ ·)
      ∧ (processFileRun k ⟨recs, t⟩).Perm recs
      ∧ (processFile k path ⟨recs, t⟩).data_count = recs.length := by
  refine ⟨rfl, processFileRun_sorted k _, processFileRun_perm k hk _, ?_⟩
  show ((readChunks k recs).map List.length).sum = recs.length
  rw [← List.length_flatten, readChunks_flatten k hk]

/-- Witness for C3: a 18-byte file (two records, two trailing bytes),
capacity 3. -/
theorem c3_trailing_ignored_witness :
    processFileE true 3 "f.dat" ⟨[7, 5], 2⟩
        = Except.ok (processFile 3 "f.dat" ⟨[7, 5], 0⟩,
            processFileRun 3 ⟨[7, 5], 0⟩)
      ∧ (processFileRun 3 ⟨[7, 5], 2⟩).Sorted (· ≤ ·)
      ∧ (processFileRun 3 ⟨[7, 5], 2⟩).Perm [7, 5]
      ∧ (processFile 3 "f.dat" ⟨[7, 5], 2⟩).data_count = 2 :=
  c3_trailing_ignored 3 "f.dat" [7, 5] 2 (by decide)

/-- Claim C4, counterexample to the claim as frozen: for an empty input file
the run producer returns ONE run (an empty run file named
`path + ".sorted"`), not zero runs — the first loop iteration always writes
a chunk file, and lines 148-151 rename it to the run. -/
theorem c4_empty_input_cex :
    (processFileRunsList 3 "e.dat" ⟨[], 0⟩).length ≠ 0
      ∧ processFileRun 3 ⟨[], 0⟩ = [] := by
  decide

/-- Claim C4 (amended): an empty input file yields exactly one run — a
single EMPTY run file at `path + ".sorted"` with record count 0 — rather
than an empty run set. -/
theorem c4_empty_input_single_empty_run (k : Nat) (path : String) :
    processFileRunsList k path ⟨[], 0⟩ = [(path ++ ".sorted", [])]
      ∧ (processFile k path ⟨[], 0⟩).data_count = 0 := by
  have hrc : readChunks k [] = [[]] := by
    cases k with
    | zero => rfl
    | succ n => simp [readChunks, processLoop, fillBuffer]
  have hch : processFileChunks k ⟨[], 0⟩ = [[]] := by
    rw [processFileChunks]
    show (readChunks k []).map sortList = [[]]
    rw [hrc]
    rfl
  have hrun : processFileRun k ⟨[], 0⟩ = [] := by
    simp [processFileRun, hch]
  constructor
  · simp [processFileRunsList, hrun]
  · show ((readChunks k ([] : List Int)).map List.length).sum = 0
    rw [hrc]
    rfl

/-- Claim C5: the source does NOT clamp the per-worker capacity to at least
one record.  At the failing input `memory_limit = 1`, `num_threads = 1`
(any budget below `W*8` behaves the same) the capacity is 0 and the read
loop makes no progress at all: after any number of iterations the remaining
input and the `finished` flag are unchanged, so `processFile` never
terminates, contradicting the claimed (and specified) forward progress. -/
theorem c5_zero_capacity_never_finishes :
    maxElements 1 1 = 0
      ∧ ∀ (n : Nat) (l : List Int),
          runGenSteps n 0 (l, false) = (l, false) := by
  refine ⟨rfl, ?_⟩
  intro n
  induction n with
  | zero => intro l; rfl
  | succ n ih =>
    intro l
    show runGenSteps n 0 (l.drop 0, decide (l.length < 0)) = (l, false)
    rw [List.drop_zero]
    have hd : decide (l.length < 0) = false := by simp
    rw [hd]
    exact ih l

/-- Claim C6: throughout run generation no single worker's buffer ever
holds more than `⌊M / (W*8)⌋` records: every chunk read by the loop — the
buffer at its fullest — has length at most the capacity
`maxElements M W`. -/
theorem c6_buffer_bound (M W : Nat) (l : List Int) (c : List Int)
    (hc : c ∈ readChunks (maxElements M W) l) :
    c.length ≤ maxElements M W :=
  readChunks_chunk_le (maxElements M W) l c hc

/-- Witness for C6: `M = 48`, `W = 2` give capacity 3; the first chunk of a
five-record file has exactly 3 records. -/
theorem c6_buffer_bound_witness :
    ([5, 4, 3] : List Int).length ≤ maxElements 48 2 :=
  c6_buffer_bound 48 2 [5, 4, 3, 2, 1] [5, 4, 3] (by decide)

/-- Claim C7, counterexample to the claim as frozen: the heap comparator
`Element::operator>` compares values only.  On the tied heads (5, index 1)
and (5, index 0) it returns `false` in both directions, so the heap's
ordering cannot prefer the lower input index (the claimed index tie-break
would require the first comparison to be `true`). -/
theorem c7_comparator_ignores_index_cex :
    Element.gt ⟨5, 1⟩ ⟨5, 0⟩ = false
      ∧ Element.gt ⟨5, 0⟩ ⟨5, 1⟩ = false := by
  decide

/-- Claim C7 (amended): the min-heap ordering breaks no ties — equal-value
elements are equivalent under `Element::operator>` whatever their input
indices, and the pop order among them is left to the heap's internal
layout.  This cannot affect the output: for sorted inputs the merge output
is exactly the sorted flattening of the streams, which is determined by the
value multiset alone, so any tie resolution produces the same bytes. -/
theorem c7_value_only_ordering :
    (∀ (v : Int) (i j : Nat), Element.gt ⟨v, i⟩ ⟨v, j⟩ = false)
      ∧ ∀ ss : List (List Int), (∀ s ∈ ss, s.Sorted (· ≤ ·)) →
          kmerge ss = sortList ss.flatten := by
  constructor
  · intro v i j
    simp [Element.gt]
  · intro ss hsort
    refine List.eq_of_perm_of_sorted ?_ (kmerge_sorted ss hsort)
      (sortList_sorted _)
    exact (kmerge_perm ss).trans (sortList_perm ss.flatten).symm

/-- Witness for C7: a concrete tie and a concrete two-stream merge. -/
theorem c7_value_only_ordering_witness :
    Element.gt ⟨5, 2⟩ ⟨5, 3⟩ = false
      ∧ kmerge [[1, 3], [2]] = sortList [1, 3, 2] :=
  ⟨c7_value_only_ordering.1 5 2 3,
    c7_value_only_ordering.2 [[1, 3], [2]] (by decide)⟩

/-- Claim C8, counterexample to the claim as frozen: a mid-merge read
failure on stream 0 (its records `[7]` are lost behind an I/O error) does
NOT abort the merge — `ifstream::read` failure is treated as end of stream
— and the incomplete output file `[1, 2]` is left on disk, not deleted. -/
theorem c8_read_error_completes_cex :
    mergeFilesE (fun _ => true) true [⟨[1], [7]⟩, ⟨[2], []⟩]
      = ⟨none, some [1, 2], false, 0⟩ := by
  rfl

/-- Claim C8 (amended): the merger detects I/O errors only when OPENING
files.  Whenever an input or the output fails to open on a merge of two or
more files, it throws after closing every handle it had opened, and no
output file has been written (so there is no partial output to delete);
input run files are never deleted by the merger.  Mid-stream read errors
are not detected: they silently end the stream and the merge completes,
leaving its (possibly incomplete) output in place. -/
theorem c8_open_failure_behavior (openOk : Nat → Bool) (outOk : Bool)
    (files : List MFile) (h2 : 2 ≤ files.length)
    (hfail : (∃ i, i < files.length ∧ openOk i = false) ∨ outOk = false) :
    (mergeFilesE openOk outOk files).threw.isSome = true
      ∧ (mergeFilesE openOk outOk files).outputOnDisk = none
      ∧ (mergeFilesE openOk outOk files).inputsDeleted = false
      ∧ (mergeFilesE openOk outOk files).openHandles = 0 := by
  rcases files with _ | ⟨f, rest⟩
  · simp at h2
  rcases rest with _ | ⟨g, rest⟩
  · simp at h2
  rcases hfo : firstOpenFail openOk (f :: g :: rest).length with _ | i
  · have hallok : ∀ i, i < (f :: g :: rest).length → openOk i = true := by
      intro i hi
      have h3 := List.find?_eq_none.mp hfo i (List.mem_range.mpr hi)
      simpa using h3
    have hout : outOk = false := by
      rcases hfail with ⟨i, hi, hbad⟩ | hout
      · rw [hallok i hi] at hbad
        simp at hbad
      · exact hout
    have hfo2 : firstOpenFail openOk (rest.length + 1 + 1) = none := by
      simpa using hfo
    simp [mergeFilesE, hfo2, hout]
  · have hfo2 : firstOpenFail openOk (rest.length + 1 + 1) = some i := by
      simpa using hfo
    simp [mergeFilesE, hfo2]

/-- Witness for C8: input 0 fails to open on a two-file merge. -/
theorem c8_open_failure_behavior_witness :
    (mergeFilesE (fun i => decide (i ≠ 0)) true
        [⟨[1], []⟩, ⟨[2], []⟩]).threw.isSome = true
      ∧ (mergeFilesE (fun i => decide (i ≠ 0)) true
          [⟨[1], []⟩, ⟨[2], []⟩]).outputOnDisk = none
      ∧ (mergeFilesE (fun i => decide (i ≠ 0)) true
          [⟨[1], []⟩, ⟨[2], []⟩]).inputsDeleted = false
      ∧ (mergeFilesE (fun i => decide (i ≠ 0)) true
          [⟨[1], []⟩, ⟨[2], []⟩]).openHandles = 0 :=
  c8_open_failure_behavior (fun i => decide (i ≠ 0)) true
    [⟨[1], []⟩, ⟨[2], []⟩] (by decide)
    (Or.inl ⟨0, by decide, by decide⟩)

/-- Claim C9: on thread-pool shutdown no enqueued task is discarded.  A
worker exits only under `stop_ && tasks_.empty()` (the `workerExit`
transition), so in every reachable state in which the destructor has
returned (all `W ≥ 1` workers joined) the executed tasks are exactly the
submitted tasks. -/
theorem c9_dtor_waits_for_all_tasks (W : Nat) (s : PoolState) (hW : 0 < W)
    (hreach : PoolReachable W s) (hjoin : s.joined = true) :
    s.executed = s.submitted := by
  have hinv := poolInv_reachable W s hreach
  rcases hinv with ⟨h1, _, h3, h4⟩
  rcases h4 hjoin with ⟨hex, _⟩
  have hq : s.queue = [] := (h3 (by omega)).1
  rw [h1, hq, List.append_nil]

/-- Witness for C9: a one-worker pool runs through submit, shutdown, task
execution, worker exit, and destructor return; the executed list equals the
submitted list. -/
theorem c9_dtor_waits_for_all_tasks_witness :
    PoolState.executed ⟨true, [], [7], [7], 1, true⟩
      = PoolState.submitted ⟨true, [], [7], [7], 1, true⟩ := by
  have s0 : PoolReachable 1 initPool := PoolReachable.init
  have s1 : PoolReachable 1 ⟨false, [7], [7], [], 0, false⟩ :=
    s0.step (PoolStep.submit initPool 7 rfl)
  have s2 : PoolReachable 1 ⟨true, [7], [7], [], 0, false⟩ :=
    s1.step (PoolStep.setStop _)
  have s3 : PoolReachable 1 ⟨true, [], [7], [7], 0, false⟩ :=
    s2.step (PoolStep.take _ 7 [] rfl)
  have s4 : PoolReachable 1 ⟨true, [], [7], [7], 1, false⟩ :=
    s3.step (PoolStep.workerExit _ rfl rfl (by decide))
  have s5 : PoolReachable 1 ⟨true, [], [7], [7], 1, true⟩ :=
    s4.step (PoolStep.dtorReturn _ rfl rfl)
  exact c9_dtor_waits_for_all_tasks 1 _ (by decide) s5 rfl

/-- Claim C10: for every input file the run producer returns exactly one
run — the single temporary file `path + ".sorted"` — and the returned
record count equals the number of complete 8-byte records read from the
file. -/
theorem c10_single_run_full_count (k : Nat) (path : String) (f : FileData)
    (hk : 0 < k) :
    (processFileRunsList k path f).length = 1
      ∧ (processFile k path f).temp_file = path ++ ".sorted"
      ∧ (processFile k path f).data_count = f.records.length := by
  refine ⟨rfl, rfl, ?_⟩
  show ((readChunks k f.records).map List.length).sum = f.records.length
  rw [← List.length_flatten, readChunks_flatten k hk]

/-- Witness for C10: a three-record file at capacity 2. -/
theorem c10_single_run_full_count_witness :
    (processFileRunsList 2 "a.dat" ⟨[9, 8, 7], 0⟩).length = 1
      ∧ (processFile 2 "a.dat" ⟨[9, 8, 7], 0⟩).temp_file
          = "a.dat" ++ ".sorted"
      ∧ (processFile 2 "a.dat" ⟨[9, 8, 7], 0⟩).data_count
          = ([9, 8, 7] : List Int).length :=
  c10_single_run_full_count 2 "a.dat" ⟨[9, 8, 7], 0⟩ (by decide)

end ExternalMergeSort
